import Mathlib

/-!
# Verification of the pwdgen password generator

Shallow embedding of the Rust sources (`src/core.rs`, `src/main.rs`) of the
`pwdgen` repository, together with proofs of the specification's claims.

Modelling conventions:

* Rust `char` is Lean `Char`; `Vec<char>` is `List Char`; `usize` is `Nat`.
* The thread-local random generator `rand::thread_rng()` is modelled as an
  explicit state `Rng`: an infinite stream of raw random naturals together
  with a position counter.  `Rng.pos` counts how many draws have been
  consumed so far; each `gen_range(0..bound)` reads the next raw value and
  reduces it modulo `bound` (an arbitrary value in `[0, bound)`; the
  distributional claim "uniform" is carried by the raw stream).  Rust's
  `thread_rng` is a single mutable thread-local value, so the same state is
  threaded through every phase and every helper, and it stays advanced when
  a later step panics.
* Panics are modelled as `Except.error` values carried beside the final
  `Rng` state: `gen_range` over an empty range panics
  (`PwdError.emptyRange`), out-of-bounds `Vec` indexing panics
  (`PwdError.indexOutOfBounds`), the two explicit `panic!` precondition
  checks of `produce_password` give `PwdError.lengthTooShort` and
  `PwdError.emptyAlphabetSet`, and `usize` subtraction with overflow checks
  enabled panics (`PwdError.subOverflow`).
-/

/-- The random-generator state: a stream of raw draws and the number of
draws consumed so far. -/
structure Rng where
  stream : Nat → Nat
  pos : Nat

/-- The panics the program can raise, as error values. -/
inductive PwdError where
  | lengthTooShort
  | emptyAlphabetSet
  | emptyRange
  | indexOutOfBounds
  | subOverflow
  deriving DecidableEq, Repr

/-- Model of `rand`'s `rng.gen_range(0..bound)`: panics on an empty range
(without consuming a draw), otherwise consumes one raw value from the
stream and returns it reduced into `[0, bound)`. -/
def genRange (bound : Nat) (g : Rng) : Except PwdError Nat × Rng :=
  if bound = 0 then (.error .emptyRange, g)
  else (.ok (g.stream g.pos % bound), ⟨g.stream, g.pos + 1⟩)

/-- Rust debug-profile `usize` subtraction: `a - b` panics on underflow. -/
def usizeSub (a b : Nat) : Except PwdError Nat :=
  if b ≤ a then .ok (a - b) else .error .subOverflow

/-- `core.rs`: `pub struct Alphabet { symbols: Vec<char> }`. -/
structure Alphabet where
  symbols : List Char
  deriving DecidableEq, Repr

namespace Alphabet

/-- `core.rs` `Alphabet::new`: `Alphabet { symbols: symbols.chars().collect() }`. -/
def new (symbols : String) : Alphabet :=
  ⟨symbols.data⟩

/-- `core.rs` `Alphabet::get`: returns the stored symbols-sequence. -/
def get (a : Alphabet) : List Char :=
  a.symbols

/-- `core.rs` `Alphabet::len`: the number of symbols. -/
def len (a : Alphabet) : Nat :=
  a.symbols.length

/-- `core.rs` `Alphabet::nth`: `self.symbols[n]`, a panicking `Vec` index
(`none` models the out-of-bounds panic). -/
def nth (a : Alphabet) (n : Nat) : Option Char :=
  a.symbols[n]?

end Alphabet

/-- The coverage loop of `produce_password` (`core.rs` lines 73-76):
for each alphabet draw one index uniformly from `[0, abc.len())` and push
`abc.nth(i)` onto the password buffer. -/
def coverage : List Alphabet → Rng → Except PwdError (List Char) × Rng
  | [], g => (.ok [], g)
  | abc :: rest, g =>
    match genRange abc.len g with
    | (.error e, g) => (.error e, g)
    | (.ok i, g) =>
      match abc.nth i with
      | none => (.error .indexOutOfBounds, g)
      | some c =>
        match coverage rest g with
        | (.error e, g) => (.error e, g)
        | (.ok cs, g) => (.ok (c :: cs), g)

/-- The pool built by `produce_password` (`core.rs` lines 79-82):
`let mut symbols = Vec::new(); for abc in alphabets { symbols.extend(abc.get()); }`. -/
def collect_all_symbols (alphabets : List Alphabet) : List Char :=
  alphabets.foldl (fun acc abc => acc ++ abc.get) []

/-- The fill loop of `produce_password` (`core.rs` lines 86-89):
while the buffer is shorter than `length`, draw an index uniformly from
`[0, symbols.len())` and push `symbols[i]`. -/
def fillLoop (length : Nat) (symbols : List Char) (password : List Char)
    (g : Rng) : Except PwdError (List Char) × Rng :=
  if h : password.length < length then
    match genRange symbols.length g with
    | (.error e, g) => (.error e, g)
    | (.ok i, g) =>
      match symbols[i]? with
      | none => (.error .indexOutOfBounds, g)
      | some c => fillLoop length symbols (password ++ [c]) g
  else (.ok password, g)
termination_by length - password.length
decreasing_by simp [List.length_append]; omega

/-- `Vec::swap(i, j)` on a list (both indices are in bounds at every call
site inside the shuffle). -/
def listSwap (l : List Char) (i j : Nat) : List Char :=
  (l.set i (l.getD j ' ')).set j (l.getD i ' ')

/-- The loop of `rand`'s `SliceRandom::shuffle` (Fisher-Yates):
`for i in (1..len).rev() { self.swap(i, rng.gen_range(0..=i)); }`.
`shuffleLoop l i g` performs the steps for indices `i, i-1, ..., 1`. -/
def shuffleLoop : List Char → Nat → Rng → Except PwdError (List Char) × Rng
  | l, 0, g => (.ok l, g)
  | l, Nat.succ k, g =>
    match genRange (k + 2) g with
    | (.error e, g) => (.error e, g)
    | (.ok j, g) => shuffleLoop (listSwap l (k + 1) j) k g

/-- `password.shuffle(&mut rng)` (`core.rs` line 92). -/
def shuffleList (l : List Char) (g : Rng) : Except PwdError (List Char) × Rng :=
  shuffleLoop l (l.length - 1) g

/-- `core.rs` `produce_password`: precondition panics (length check first,
then the empty-set check), coverage draws, pool merge, fill draws, shuffle,
and collection into a `String`. -/
def produce_password (length : Nat) (alphabets : List Alphabet) (g : Rng) :
    Except PwdError String × Rng :=
  if length < alphabets.length then (.error .lengthTooShort, g)
  else if alphabets.length < 1 then (.error .emptyAlphabetSet, g)
  else
    match coverage alphabets g with
    | (.error e, g) => (.error e, g)
    | (.ok password, g) =>
      match fillLoop length (collect_all_symbols alphabets) password g with
      | (.error e, g) => (.error e, g)
      | (.ok password, g) =>
        match shuffleList password g with
        | (.error e, g) => (.error e, g)
        | (.ok password, g) => (.ok (String.mk password), g)

/-! ## The object-oriented duplicate in `main.rs`

`main.rs` re-implements the same algorithm inside `mod core` as a
`PasswordFactory` struct.  It is embedded independently of the free
function above (the repository contains two separate copies of the logic),
so that their equivalence is a theorem, not a modelling artefact. -/

/-- `main.rs`: `pub struct PasswordFactory { length: usize, alphabets: Vec<Alphabet> }`. -/
structure PasswordFactory where
  length : Nat
  alphabets : List Alphabet

namespace PasswordFactory

/-- `main.rs` `PasswordFactory::new`. -/
def new (length : Nat) (alphabets : List Alphabet) : PasswordFactory :=
  ⟨length, alphabets⟩

/-- Loop body of `random_from_each_alphabet` (`main.rs` lines 276-279),
accumulating pushed symbols in order. -/
def eachLoop : List Alphabet → List Char → Rng → Except PwdError (List Char) × Rng
  | [], acc, g => (.ok acc, g)
  | abc :: rest, acc, g =>
    match genRange abc.len g with
    | (.error e, g) => (.error e, g)
    | (.ok n, g) =>
      match abc.nth n with
      | none => (.error .indexOutOfBounds, g)
      | some c => eachLoop rest (acc ++ [c]) g

/-- `main.rs` `PasswordFactory::random_from_each_alphabet`. -/
def random_from_each_alphabet (f : PasswordFactory) (g : Rng) :
    Except PwdError (List Char) × Rng :=
  eachLoop f.alphabets [] g

/-- `main.rs` `PasswordFactory::collect_all_symbols`: the same extend-fold
as the free function's merge step. -/
def collect_all_symbols (f : PasswordFactory) : List Char :=
  f.alphabets.foldl (fun acc abc => acc ++ abc.get) []

/-- Loop body of `random_from_any_alphabet` (`main.rs` lines 299-302):
`for _ in 0..length { symbols.push(all_symbols[rng.gen_range(0..max)]); }`. -/
def anyLoop (all_symbols : List Char) : Nat → List Char → Rng →
    Except PwdError (List Char) × Rng
  | 0, acc, g => (.ok acc, g)
  | Nat.succ n, acc, g =>
    match genRange all_symbols.length g with
    | (.error e, g) => (.error e, g)
    | (.ok i, g) =>
      match all_symbols[i]? with
      | none => (.error .indexOutOfBounds, g)
      | some c => anyLoop all_symbols n (acc ++ [c]) g

/-- `main.rs` `PasswordFactory::random_from_any_alphabet`. -/
def random_from_any_alphabet (f : PasswordFactory) (length : Nat) (g : Rng) :
    Except PwdError (List Char) × Rng :=
  anyLoop f.collect_all_symbols length [] g

/-- `main.rs` `PasswordFactory::produce`: each-alphabet draws, then
`length - symbols.len()` further draws from the merged pool (a checked
`usize` subtraction), then the same `SliceRandom::shuffle`. -/
def produce (f : PasswordFactory) (g : Rng) : Except PwdError String × Rng :=
  match f.random_from_each_alphabet g with
  | (.error e, g) => (.error e, g)
  | (.ok symbols, g) =>
    match usizeSub f.length symbols.length with
    | .error e => (.error e, g)
    | .ok k =>
      match f.random_from_any_alphabet k g with
      | (.error e, g) => (.error e, g)
      | (.ok extra, g) =>
        match shuffleList (symbols ++ extra) g with
        | (.error e, g) => (.error e, g)
        | (.ok symbols, g) => (.ok (String.mk symbols), g)

end PasswordFactory

/-- The validity precondition used throughout the specification: at least
one alphabet, every alphabet non-empty, and a length of at least one
symbol per alphabet. -/
def ValidInput (length : Nat) (alphabets : List Alphabet) : Prop :=
  alphabets ≠ [] ∧ (∀ abc ∈ alphabets, 0 < abc.len) ∧ alphabets.length ≤ length

/-- A concrete random state whose stream constantly yields `v`, used to
evaluate the theorems on explicit inputs. -/
def constRng (v : Nat) : Rng :=
  ⟨fun _ => v, 0⟩

/-! ## Helper lemmas: the shuffle is a permutation -/

/-- Replacing the `m`-th element and moving the old one to the front is a
permutation. -/
theorem getD_set_perm (xs : List Char) (m : Nat) (x : Char) (h : m < xs.length) :
    ((xs.getD m ' ') :: xs.set m x).Perm (x :: xs) := by
  induction xs generalizing m with
  | nil => simp at h
  | cons y ys ih =>
    cases m with
    | zero =>
      simp only [List.getD_cons_zero, List.set_cons_zero]
      exact List.Perm.swap x y ys
    | succ k =>
      simp only [List.getD_cons_succ, List.set_cons_succ]
      have hk : k < ys.length := by simpa using h
      have p1 : ((ys.getD k ' ') :: y :: ys.set k x).Perm
          (y :: (ys.getD k ' ') :: ys.set k x) := List.Perm.swap _ _ _
      have p2 : (y :: (ys.getD k ' ') :: ys.set k x).Perm (y :: x :: ys) :=
        List.Perm.cons y (ih k hk)
      have p3 : (y :: x :: ys).Perm (x :: y :: ys) := List.Perm.swap _ _ _
      exact p1.trans (p2.trans p3)

/-- `Vec::swap` with in-bounds indices permutes the list. -/
theorem listSwap_perm (l : List Char) (i j : Nat) (hi : i < l.length)
    (hj : j < l.length) : (listSwap l i j).Perm l := by
  induction l generalizing i j with
  | nil => simp at hi
  | cons x xs ih =>
    cases i with
    | zero =>
      cases j with
      | zero =>
        simp [listSwap]
      | succ m =>
        have hm : m < xs.length := by simpa using hj
        simpa [listSwap] using getD_set_perm xs m x hm
    | succ n =>
      have hn : n < xs.length := by simpa using hi
      cases j with
      | zero =>
        simpa [listSwap] using getD_set_perm xs n x hn
      | succ m =>
        have hm : m < xs.length := by simpa using hj
        have : listSwap (x :: xs) (n + 1) (m + 1) = x :: listSwap xs n m := by
          simp [listSwap]
        rw [this]
        exact List.Perm.cons x (ih n m hn hm)

/-- The Fisher-Yates loop starting at in-bounds index `i` succeeds, consumes
exactly `i` draws, and returns a permutation of its input. -/
theorem shuffleLoop_ok (i : Nat) (l : List Char) (g : Rng) (h : i < l.length) :
    ∃ l', shuffleLoop l i g = (.ok l', ⟨g.stream, g.pos + i⟩) ∧ l'.Perm l := by
  induction i generalizing l g with
  | zero =>
    refine ⟨l, ?_, List.Perm.refl l⟩
    cases g
    rfl
  | succ k ih =>
    have hb : k + 2 ≠ 0 := by omega
    have hj : g.stream g.pos % (k + 2) < l.length :=
      lt_of_lt_of_le (Nat.mod_lt _ (by omega)) h
    have hswap := listSwap_perm l (k + 1) (g.stream g.pos % (k + 2)) h hj
    have hlen : (listSwap l (k + 1) (g.stream g.pos % (k + 2))).length = l.length :=
      hswap.length_eq
    have hk : k < (listSwap l (k + 1) (g.stream g.pos % (k + 2))).length := by
      omega
    obtain ⟨l', hrun, hperm⟩ :=
      ih (listSwap l (k + 1) (g.stream g.pos % (k + 2))) ⟨g.stream, g.pos + 1⟩ hk
    refine ⟨l', ?_, hperm.trans hswap⟩
    simp only [shuffleLoop, genRange, if_neg hb]
    rw [hrun]
    simp [Nat.add_assoc, Nat.add_comm 1 k]

/-- `SliceRandom::shuffle` always succeeds, consumes `len - 1` draws, and
returns a permutation of its input. -/
theorem shuffleList_ok (l : List Char) (g : Rng) :
    ∃ l', shuffleList l g = (.ok l', ⟨g.stream, g.pos + (l.length - 1)⟩) ∧
      l'.Perm l := by
  cases l with
  | nil =>
    refine ⟨[], ?_, List.Perm.refl []⟩
    cases g
    rfl
  | cons x xs =>
    exact shuffleLoop_ok (x :: xs).length.pred (x :: xs) g (by simp)

/-! ## Helper lemmas: the coverage phase -/

/-- When every alphabet is non-empty, the coverage loop succeeds, consumes
one draw per alphabet, and its `i`-th output symbol belongs to the `i`-th
alphabet. -/
theorem coverage_ok (alphabets : List Alphabet) (g : Rng)
    (h : ∀ abc ∈ alphabets, 0 < abc.len) :
    ∃ cover, coverage alphabets g = (.ok cover, ⟨g.stream, g.pos + alphabets.length⟩) ∧
      cover.length = alphabets.length ∧
      ∀ i, i < alphabets.length → cover.getD i ' ' ∈ (alphabets.getD i ⟨[]⟩).get := by
  induction alphabets generalizing g with
  | nil =>
    refine ⟨[], ?_, rfl, by intro i hi; simp at hi⟩
    cases g
    rfl
  | cons abc rest ih =>
    have habc : 0 < abc.len := h abc (by simp)
    have hb : abc.len ≠ 0 := by omega
    have hidx : g.stream g.pos % abc.len < abc.symbols.length :=
      Nat.mod_lt _ habc
    obtain ⟨cover, hrun, hlen, hmem⟩ :=
      ih ⟨g.stream, g.pos + 1⟩ (fun a ha => h a (by simp [ha]))
    refine ⟨abc.symbols[g.stream g.pos % abc.len] :: cover, ?_, by simp [hlen], ?_⟩
    · simp only [coverage, genRange, if_neg hb, Alphabet.nth,
        List.getElem?_eq_getElem hidx]
      rw [hrun]
      simp [Nat.add_assoc, Nat.add_comm 1 rest.length]
    · intro i hi
      cases i with
      | zero =>
        simp only [List.getD_cons_zero, List.getD_cons_zero, Alphabet.get]
        exact List.getElem_mem hidx
      | succ k =>
        have hk : k < rest.length := by simpa using hi
        simpa using hmem k hk

/-- The result of a successful coverage run has one symbol per alphabet. -/
theorem coverage_length (alphabets : List Alphabet) :
    ∀ g cover g', coverage alphabets g = (.ok cover, g') →
      cover.length = alphabets.length := by
  induction alphabets with
  | nil =>
    intro g cover g' h
    simp only [coverage, Prod.mk.injEq, Except.ok.injEq] at h
    obtain ⟨rfl, rfl⟩ := h
    simp
  | cons abc rest ih =>
    intro g cover g' h
    simp only [coverage] at h
    rcases hg : genRange abc.len g with ⟨r, g1⟩
    rw [hg] at h
    cases r with
    | error e => simp at h
    | ok i =>
      simp only at h
      rcases hn : abc.nth i with _ | c
      · rw [hn] at h; simp at h
      · rw [hn] at h
        rcases hc : coverage rest g1 with ⟨rr, g2⟩
        rw [hc] at h
        cases rr with
        | error e => simp at h
        | ok cs =>
          simp only [Prod.mk.injEq, Except.ok.injEq] at h
          obtain ⟨rfl, rfl⟩ := h
          simp [ih g1 cs g2 hc]

/-- A failing coverage run fails with the empty-range sampling panic. -/
theorem coverage_error_cases (alphabets : List Alphabet) :
    ∀ g e g', coverage alphabets g = (.error e, g') → e = PwdError.emptyRange := by
  induction alphabets with
  | nil =>
    intro g e g' h
    simp [coverage] at h
  | cons abc rest ih =>
    intro g e g' h
    simp only [coverage] at h
    by_cases hb : abc.len = 0
    · simp only [genRange, if_pos hb, Prod.mk.injEq, Except.error.injEq] at h
      exact h.1.symm
    · have hidx : g.stream g.pos % abc.len < abc.symbols.length :=
        Nat.mod_lt _ (by omega)
      simp only [genRange, if_neg hb, Alphabet.nth,
        List.getElem?_eq_getElem hidx] at h
      rcases hc : coverage rest ⟨g.stream, g.pos + 1⟩ with ⟨rr, g2⟩
      rw [hc] at h
      cases rr with
      | error e2 =>
        simp only [Prod.mk.injEq, Except.error.injEq] at h
        obtain ⟨rfl, rfl⟩ := h
        exact ih _ _ _ hc
      | ok cs => simp at h

/-- If some supplied alphabet is empty, the coverage loop fails with the
empty-range sampling panic. -/
theorem coverage_fails_of_empty_mem (alphabets : List Alphabet) :
    ∀ g, (∃ abc ∈ alphabets, abc.len = 0) →
      ∃ g', coverage alphabets g = (.error .emptyRange, g') := by
  induction alphabets with
  | nil =>
    intro g h
    simp at h
  | cons abc rest ih =>
    intro g h
    by_cases hb : abc.len = 0
    · exact ⟨g, by simp [coverage, genRange, if_pos hb]⟩
    · have hidx : g.stream g.pos % abc.len < abc.symbols.length :=
        Nat.mod_lt _ (by omega)
      have hrest : ∃ a ∈ rest, a.len = 0 := by
        rcases h with ⟨a, ha, ha0⟩
        rcases List.mem_cons.mp ha with rfl | hmem
        · exact absurd ha0 hb
        · exact ⟨a, hmem, ha0⟩
      obtain ⟨g', hg'⟩ := ih ⟨g.stream, g.pos + 1⟩ hrest
      refine ⟨g', ?_⟩
      simp only [coverage, genRange, if_neg hb, Alphabet.nth,
        List.getElem?_eq_getElem hidx]
      rw [hg']

/-! ## Helper lemmas: the fill phase and the merged pool -/

/-- The extend-fold building the pool, with an arbitrary accumulator. -/
theorem collect_fold_eq (alphabets : List Alphabet) :
    ∀ acc : List Char,
      alphabets.foldl (fun acc abc => acc ++ abc.get) acc =
        acc ++ (alphabets.map Alphabet.get).flatten := by
  induction alphabets with
  | nil => intro acc; simp
  | cons abc rest ih =>
    intro acc
    simp [ih, List.append_assoc]

/-- The merged pool is the concatenation of all alphabets' symbol lists, in
input order, duplicates preserved. -/
theorem collect_all_symbols_eq (alphabets : List Alphabet) :
    collect_all_symbols alphabets = (alphabets.map Alphabet.get).flatten := by
  simpa using collect_fold_eq alphabets []

/-- Under the validity precondition the merged pool is non-empty. -/
theorem collect_all_symbols_pos (alphabets : List Alphabet)
    (h1 : alphabets ≠ []) (h2 : ∀ abc ∈ alphabets, 0 < abc.len) :
    0 < (collect_all_symbols alphabets).length := by
  cases alphabets with
  | nil => exact absurd rfl h1
  | cons abc rest =>
    have : 0 < abc.len := h2 abc (by simp)
    rw [collect_all_symbols_eq]
    simp only [List.map_cons, List.flatten_cons, List.length_append]
    have : 0 < abc.get.length := this
    omega

/-- Closed form of the fill loop: with a non-empty pool it succeeds, appends
`length - password.len()` symbols, each being the pool entry at the next raw
draw reduced modulo the pool size, and consumes exactly that many draws. -/
theorem fillLoop_closed (n : Nat) :
    ∀ (length : Nat) (symbols password : List Char) (g : Rng),
      0 < symbols.length → length - password.length = n →
      fillLoop length symbols password g =
        (.ok (password ++ (List.range n).map
          (fun t => symbols.getD (g.stream (g.pos + t) % symbols.length) ' ')),
         ⟨g.stream, g.pos + n⟩) := by
  induction n with
  | zero =>
    intro length symbols password g hs hn
    have h : ¬ password.length < length := by omega
    rw [fillLoop]
    cases g
    simp [h]
  | succ k ih =>
    intro length symbols password g hs hn
    have h : password.length < length := by omega
    have hb : symbols.length ≠ 0 := by omega
    have hidx : g.stream g.pos % symbols.length < symbols.length :=
      Nat.mod_lt _ (by omega)
    rw [fillLoop]
    simp only [dif_pos h, genRange, if_neg hb, List.getElem?_eq_getElem hidx]
    rw [ih length symbols (password ++ [symbols[g.stream g.pos % symbols.length]])
      ⟨g.stream, g.pos + 1⟩ hs (by simp; omega)]
    have hsh : ∀ t : Nat, g.pos + 1 + t = g.pos + (t + 1) := by omega
    have hpos : g.pos + 1 + k = g.pos + (k + 1) := by omega
    simp only [hsh, hpos, Prod.mk.injEq, Except.ok.injEq]
    refine ⟨?_, trivial⟩
    rw [List.range_succ_eq_map, List.map_cons, List.map_map, List.append_assoc,
      List.singleton_append]
    have hf0 : symbols.getD (g.stream (g.pos + 0) % symbols.length) ' ' =
        symbols[g.stream g.pos % symbols.length] := by
      simp only [Nat.add_zero]
      exact List.getD_eq_getElem symbols ' ' hidx
    rw [hf0]
    rfl

/-- The number of in-range indices hitting a given symbol equals the
symbol's multiplicity in the pool: a symbol occurring `k` times has weight
`k` under index-uniform drawing. -/
theorem countP_range_getD (pool : List Char) (c : Char) :
    (List.range pool.length).countP (fun i => pool.getD i ' ' == c) =
      pool.count c := by
  induction pool with
  | nil => simp
  | cons x xs ih =>
    rw [List.length_cons, List.range_succ_eq_map, List.countP_cons,
      List.countP_map, List.count_cons]
    have : ((fun i => (x :: xs).getD i ' ' == c) ∘ Nat.succ) =
        (fun i => xs.getD i ' ' == c) := by
      funext i
      simp
    rw [this, ih]
    simp [List.getD_cons_zero]

/-! ## Helper lemmas: full characterization of a valid run -/

/-- On valid inputs `produce_password` runs all three phases successfully:
the coverage draws, the fill draws from the merged pool (in closed form),
and a permuting shuffle. -/
theorem produce_password_characterization (length : Nat)
    (alphabets : List Alphabet) (g : Rng) (h : ValidInput length alphabets) :
    ∃ cover final,
      coverage alphabets g = (.ok cover, ⟨g.stream, g.pos + alphabets.length⟩) ∧
      cover.length = alphabets.length ∧
      (∀ i, i < alphabets.length → cover.getD i ' ' ∈ (alphabets.getD i ⟨[]⟩).get) ∧
      fillLoop length (collect_all_symbols alphabets) cover
          ⟨g.stream, g.pos + alphabets.length⟩ =
        (.ok (cover ++ (List.range (length - alphabets.length)).map
          (fun t => (collect_all_symbols alphabets).getD
            (g.stream (g.pos + alphabets.length + t) %
              (collect_all_symbols alphabets).length) ' ')),
         ⟨g.stream, g.pos + length⟩) ∧
      shuffleList (cover ++ (List.range (length - alphabets.length)).map
          (fun t => (collect_all_symbols alphabets).getD
            (g.stream (g.pos + alphabets.length + t) %
              (collect_all_symbols alphabets).length) ' '))
          ⟨g.stream, g.pos + length⟩ =
        (.ok final, ⟨g.stream, g.pos + length + (length - 1)⟩) ∧
      final.Perm (cover ++ (List.range (length - alphabets.length)).map
        (fun t => (collect_all_symbols alphabets).getD
          (g.stream (g.pos + alphabets.length + t) %
            (collect_all_symbols alphabets).length) ' ')) ∧
      produce_password length alphabets g =
        (.ok (String.mk final), ⟨g.stream, g.pos + length + (length - 1)⟩) := by
  obtain ⟨hne, hpos, hle⟩ := h
  obtain ⟨cover, hcov, hclen, hcmem⟩ := coverage_ok alphabets g hpos
  have hp : 0 < (collect_all_symbols alphabets).length :=
    collect_all_symbols_pos alphabets hne hpos
  have hfill := fillLoop_closed (length - alphabets.length) length
    (collect_all_symbols alphabets) cover ⟨g.stream, g.pos + alphabets.length⟩
    hp (by rw [hclen])
  simp only at hfill
  have hposeq : g.pos + alphabets.length + (length - alphabets.length) =
      g.pos + length := by omega
  rw [hposeq] at hfill
  set extra := (List.range (length - alphabets.length)).map
    (fun t => (collect_all_symbols alphabets).getD
      (g.stream (g.pos + alphabets.length + t) %
        (collect_all_symbols alphabets).length) ' ') with hextra
  obtain ⟨final, hshuf, hperm⟩ :=
    shuffleList_ok (cover ++ extra) ⟨g.stream, g.pos + length⟩
  have hbuflen : (cover ++ extra).length = length := by
    simp only [List.length_append, hclen, hextra, List.length_map,
      List.length_range]
    omega
  rw [hbuflen] at hshuf
  simp only at hshuf
  refine ⟨cover, final, hcov, hclen, hcmem, hfill, hshuf, hperm, ?_⟩
  have hc1 : ¬ length < alphabets.length := by omega
  have hc2 : ¬ alphabets.length < 1 := by
    have := List.length_pos.mpr hne
    omega
  rw [produce_password, if_neg hc1, if_neg hc2]
  simp only [hcov, hfill, hshuf]

/-! ## Helper lemmas: the two implementations run the same loops -/

/-- The factory's each-alphabet loop is the free function's coverage loop
with the accumulated prefix prepended. -/
theorem eachLoop_eq (alphabets : List Alphabet) :
    ∀ (acc : List Char) (g : Rng),
      PasswordFactory.eachLoop alphabets acc g =
        (match coverage alphabets g with
         | (.ok cs, g') => (.ok (acc ++ cs), g')
         | (.error e, g') => (.error e, g')) := by
  induction alphabets with
  | nil =>
    intro acc g
    simp [PasswordFactory.eachLoop, coverage]
  | cons abc rest ih =>
    intro acc g
    simp only [PasswordFactory.eachLoop, coverage]
    rcases hg : genRange abc.len g with ⟨r, g1⟩
    cases r with
    | error e => simp
    | ok i =>
      simp only
      rcases hn : abc.nth i with _ | c
      · simp
      · simp only
        rw [ih]
        rcases hc : coverage rest g1 with ⟨rr, g2⟩
        cases rr with
        | error e => simp
        | ok cs => simp

/-- Splitting the accumulator of the factory's fill loop. -/
theorem anyLoop_append (s : List Char) :
    ∀ (n : Nat) (acc1 acc2 : List Char) (g : Rng),
      PasswordFactory.anyLoop s n (acc1 ++ acc2) g =
        (match PasswordFactory.anyLoop s n acc2 g with
         | (.ok l, g') => (.ok (acc1 ++ l), g')
         | (.error e, g') => (.error e, g')) := by
  intro n
  induction n with
  | zero =>
    intro acc1 acc2 g
    simp [PasswordFactory.anyLoop]
  | succ k ih =>
    intro acc1 acc2 g
    simp only [PasswordFactory.anyLoop]
    rcases hg : genRange s.length g with ⟨r, g1⟩
    cases r with
    | error e => simp
    | ok i =>
      simp only
      rcases hn : s[i]? with _ | c
      · simp
      · simp only
        rw [List.append_assoc, ih]

/-- The free function's while-based fill loop computes the factory's
count-based fill loop. -/
theorem fillLoop_eq_anyLoop (n : Nat) :
    ∀ (length : Nat) (s password : List Char) (g : Rng),
      length - password.length = n →
      fillLoop length s password g = PasswordFactory.anyLoop s n password g := by
  induction n with
  | zero =>
    intro length s password g hn
    have h : ¬ password.length < length := by omega
    rw [fillLoop]
    simp [h, PasswordFactory.anyLoop]
  | succ k ih =>
    intro length s password g hn
    have h : password.length < length := by omega
    rw [fillLoop]
    simp only [dif_pos h, PasswordFactory.anyLoop]
    rcases hg : genRange s.length g with ⟨r, g1⟩
    cases r with
    | error e => simp
    | ok i =>
      simp only
      rcases hn2 : s[i]? with _ | c
      · simp
      · simp only
        exact ih length s (password ++ [c]) g1 (by simp; omega)

/-! ## The claims -/

/-- C1 (Coverage): for every call `generate(length, alphabets)` with valid
inputs, and for every alphabet in the supplied list, the returned password
contains at least one symbol that is a member of that alphabet. -/
theorem coverage_guarantee (length : Nat) (alphabets : List Alphabet)
    (g : Rng) (h : ValidInput length alphabets) :
    ∃ pw g', produce_password length alphabets g = (.ok pw, g') ∧
      ∀ abc ∈ alphabets, ∃ c, c ∈ abc.get ∧ c ∈ pw.data := by
  obtain ⟨cover, final, hcov, hclen, hcmem, hfill, hshuf, hperm, hrun⟩ :=
    produce_password_characterization length alphabets g h
  refine ⟨String.mk final, _, hrun, ?_⟩
  intro abc habc
  obtain ⟨i, hi, hieq⟩ := List.mem_iff_getElem.mp habc
  refine ⟨cover.getD i ' ', ?_, ?_⟩
  · have hm := hcmem i hi
    rwa [List.getD_eq_getElem alphabets ⟨[]⟩ hi, hieq] at hm
  · have hic : i < cover.length := by omega
    have hmc : cover.getD i ' ' ∈ cover := by
      rw [List.getD_eq_getElem cover ' ' hic]
      exact List.getElem_mem hic
    exact (hperm.mem_iff).mpr (List.mem_append_left _ hmc)

/-- C1 witness: a concrete valid call. -/
theorem coverage_guarantee_witness :
    ValidInput 3 [Alphabet.new "AB", Alphabet.new "12"] ∧
    (∃ pw g', produce_password 3 [Alphabet.new "AB", Alphabet.new "12"]
        (constRng 0) = (.ok pw, g') ∧
      ∀ abc ∈ [Alphabet.new "AB", Alphabet.new "12"],
        ∃ c, c ∈ abc.get ∧ c ∈ pw.data) :=
  ⟨⟨by decide, by decide, by decide⟩,
   coverage_guarantee 3 [Alphabet.new "AB", Alphabet.new "12"] (constRng 0)
     ⟨by decide, by decide, by decide⟩⟩

/-- C2 (Length exactness): for every valid call, the returned sequence of
symbols has size exactly `length`. -/
theorem length_exactness (length : Nat) (alphabets : List Alphabet)
    (g : Rng) (h : ValidInput length alphabets) :
    ∃ pw g', produce_password length alphabets g = (.ok pw, g') ∧
      pw.length = length := by
  obtain ⟨hne, hpos, hle⟩ := h
  obtain ⟨cover, final, hcov, hclen, hcmem, hfill, hshuf, hperm, hrun⟩ :=
    produce_password_characterization length alphabets g ⟨hne, hpos, hle⟩
  refine ⟨String.mk final, _, hrun, ?_⟩
  have h1 := hperm.length_eq
  simp only [List.length_append, hclen, List.length_map, List.length_range] at h1
  show final.length = length
  omega

/-- C2 witness: a concrete valid call. -/
theorem length_exactness_witness :
    ValidInput 8 [Alphabet.new "ABCD", Alphabet.new "12"] ∧
    (∃ pw g', produce_password 8 [Alphabet.new "ABCD", Alphabet.new "12"]
        (constRng 7) = (.ok pw, g') ∧ pw.length = 8) :=
  ⟨⟨by decide, by decide, by decide⟩,
   length_exactness 8 [Alphabet.new "ABCD", Alphabet.new "12"] (constRng 7)
     ⟨by decide, by decide, by decide⟩⟩

/-- C3 (Fill phase sampling pool): the pool used for every fill-phase draw
is exactly the concatenation of the symbol sequences of all supplied
alphabets in input order, preserving duplicates; each fill draw takes the
symbol at an index drawn uniformly from `[0, pool size)` (the next raw
value reduced modulo the pool size, always in range); and a symbol
occurring `k` times in the concatenation is hit by exactly `k` of the
possible indices, hence has weight `k` in each fill draw. -/
theorem fill_pool_spec (length : Nat) (alphabets : List Alphabet) :
    collect_all_symbols alphabets = (alphabets.map Alphabet.get).flatten ∧
    (∀ (password : List Char) (g : Rng),
      0 < (collect_all_symbols alphabets).length →
      fillLoop length (collect_all_symbols alphabets) password g =
        (.ok (password ++ (List.range (length - password.length)).map
          (fun t => (collect_all_symbols alphabets).getD
            (g.stream (g.pos + t) % (collect_all_symbols alphabets).length) ' ')),
         ⟨g.stream, g.pos + (length - password.length)⟩)) ∧
    (∀ (g : Rng) (t : Nat), 0 < (collect_all_symbols alphabets).length →
      g.stream t % (collect_all_symbols alphabets).length <
        (collect_all_symbols alphabets).length) ∧
    (∀ c : Char,
      (List.range (collect_all_symbols alphabets).length).countP
        (fun i => (collect_all_symbols alphabets).getD i ' ' == c) =
      (collect_all_symbols alphabets).count c) :=
  ⟨collect_all_symbols_eq alphabets,
   fun password g hp =>
     fillLoop_closed (length - password.length) length
       (collect_all_symbols alphabets) password g hp rfl,
   fun g t hp => Nat.mod_lt _ hp,
   fun c => countP_range_getD (collect_all_symbols alphabets) c⟩

/-- C3 witness: the fill closed form at a concrete pool, buffer and random
state. -/
theorem fill_pool_spec_witness :
    (0 : Nat) < (collect_all_symbols [Alphabet.new "AB", Alphabet.new "B2"]).length ∧
    fillLoop 3 (collect_all_symbols [Alphabet.new "AB", Alphabet.new "B2"]) []
        (constRng 5) =
      (.ok ([] ++ (List.range (3 - ([] : List Char).length)).map
        (fun t => (collect_all_symbols [Alphabet.new "AB", Alphabet.new "B2"]).getD
          ((constRng 5).stream ((constRng 5).pos + t) %
            (collect_all_symbols [Alphabet.new "AB", Alphabet.new "B2"]).length) ' ')),
       ⟨(constRng 5).stream, (constRng 5).pos + (3 - ([] : List Char).length)⟩) :=
  ⟨by decide,
   (fill_pool_spec 3 [Alphabet.new "AB", Alphabet.new "B2"]).2.1 [] (constRng 5)
     (by decide)⟩

/-- C4 (Shuffle preserves content): the shuffle phase only permutes the
working buffer, so the multiset of symbols of the returned password equals
the multiset of the `alphabets.count()` coverage draws plus the
`length - alphabets.count()` fill draws; the final buffer is returned
unchanged except for order. -/
theorem shuffle_preserves_content (length : Nat) (alphabets : List Alphabet)
    (g : Rng) (h : ValidInput length alphabets) :
    ∃ cover extra final,
      cover.length = alphabets.length ∧
      extra.length = length - alphabets.length ∧
      coverage alphabets g = (.ok cover, ⟨g.stream, g.pos + alphabets.length⟩) ∧
      fillLoop length (collect_all_symbols alphabets) cover
          ⟨g.stream, g.pos + alphabets.length⟩ =
        (.ok (cover ++ extra), ⟨g.stream, g.pos + length⟩) ∧
      shuffleList (cover ++ extra) ⟨g.stream, g.pos + length⟩ =
        (.ok final, ⟨g.stream, g.pos + length + (length - 1)⟩) ∧
      produce_password length alphabets g =
        (.ok (String.mk final), ⟨g.stream, g.pos + length + (length - 1)⟩) ∧
      (final : Multiset Char) = ((cover ++ extra : List Char) : Multiset Char) := by
  obtain ⟨cover, final, hcov, hclen, hcmem, hfill, hshuf, hperm, hrun⟩ :=
    produce_password_characterization length alphabets g h
  refine ⟨cover, _, final, hclen, ?_, hcov, hfill, hshuf, hrun,
    Multiset.coe_eq_coe.mpr hperm⟩
  simp

/-- C4 witness: a concrete valid call. -/
theorem shuffle_preserves_content_witness :
    ValidInput 4 [Alphabet.new "AB", Alphabet.new "12"] ∧
    (∃ cover extra final,
      cover.length = ([Alphabet.new "AB", Alphabet.new "12"] : List Alphabet).length ∧
      extra.length = 4 - ([Alphabet.new "AB", Alphabet.new "12"] : List Alphabet).length ∧
      coverage [Alphabet.new "AB", Alphabet.new "12"] (constRng 1) =
        (.ok cover, ⟨(constRng 1).stream, (constRng 1).pos +
          ([Alphabet.new "AB", Alphabet.new "12"] : List Alphabet).length⟩) ∧
      fillLoop 4 (collect_all_symbols [Alphabet.new "AB", Alphabet.new "12"]) cover
          ⟨(constRng 1).stream, (constRng 1).pos +
            ([Alphabet.new "AB", Alphabet.new "12"] : List Alphabet).length⟩ =
        (.ok (cover ++ extra), ⟨(constRng 1).stream, (constRng 1).pos + 4⟩) ∧
      shuffleList (cover ++ extra) ⟨(constRng 1).stream, (constRng 1).pos + 4⟩ =
        (.ok final, ⟨(constRng 1).stream, (constRng 1).pos + 4 + (4 - 1)⟩) ∧
      produce_password 4 [Alphabet.new "AB", Alphabet.new "12"] (constRng 1) =
        (.ok (String.mk final), ⟨(constRng 1).stream, (constRng 1).pos + 4 + (4 - 1)⟩) ∧
      (final : Multiset Char) = ((cover ++ extra : List Char) : Multiset Char)) :=
  ⟨⟨by decide, by decide, by decide⟩,
   shuffle_preserves_content 4 [Alphabet.new "AB", Alphabet.new "12"] (constRng 1)
     ⟨by decide, by decide, by decide⟩⟩

/-- C5 (Boundary case): when `length` equals `alphabets.count()`, the fill
phase performs zero draws (buffer and random state unchanged) and the
result is a permutation of exactly one symbol drawn from each alphabet. -/
theorem boundary_case (alphabets : List Alphabet) (g : Rng)
    (h1 : alphabets ≠ []) (h2 : ∀ abc ∈ alphabets, 0 < abc.len) :
    ∃ cover final,
      coverage alphabets g = (.ok cover, ⟨g.stream, g.pos + alphabets.length⟩) ∧
      fillLoop alphabets.length (collect_all_symbols alphabets) cover
          ⟨g.stream, g.pos + alphabets.length⟩ =
        (.ok cover, ⟨g.stream, g.pos + alphabets.length⟩) ∧
      cover.length = alphabets.length ∧
      (∀ i, i < alphabets.length →
        cover.getD i ' ' ∈ (alphabets.getD i ⟨[]⟩).get) ∧
      final.Perm cover ∧
      produce_password alphabets.length alphabets g =
        (.ok (String.mk final),
         ⟨g.stream, g.pos + alphabets.length + (alphabets.length - 1)⟩) := by
  obtain ⟨cover, final, hcov, hclen, hcmem, hfill, hshuf, hperm, hrun⟩ :=
    produce_password_characterization alphabets.length alphabets g
      ⟨h1, h2, Nat.le_refl _⟩
  simp only [Nat.sub_self, List.range_zero, List.map_nil, List.append_nil]
    at hfill hperm hrun
  exact ⟨cover, final, hcov, hfill, hclen, hcmem, hperm, hrun⟩

/-- C5 witness: a concrete boundary call with two alphabets and length 2. -/
theorem boundary_case_witness :
    ([Alphabet.new "AB", Alphabet.new "12"] : List Alphabet) ≠ [] ∧
    (∀ abc ∈ ([Alphabet.new "AB", Alphabet.new "12"] : List Alphabet), 0 < abc.len) ∧
    (∃ cover final,
      coverage [Alphabet.new "AB", Alphabet.new "12"] (constRng 1) =
        (.ok cover, ⟨(constRng 1).stream, (constRng 1).pos +
          ([Alphabet.new "AB", Alphabet.new "12"] : List Alphabet).length⟩) ∧
      fillLoop ([Alphabet.new "AB", Alphabet.new "12"] : List Alphabet).length
          (collect_all_symbols [Alphabet.new "AB", Alphabet.new "12"]) cover
          ⟨(constRng 1).stream, (constRng 1).pos +
            ([Alphabet.new "AB", Alphabet.new "12"] : List Alphabet).length⟩ =
        (.ok cover, ⟨(constRng 1).stream, (constRng 1).pos +
          ([Alphabet.new "AB", Alphabet.new "12"] : List Alphabet).length⟩) ∧
      cover.length = ([Alphabet.new "AB", Alphabet.new "12"] : List Alphabet).length ∧
      (∀ i, i < ([Alphabet.new "AB", Alphabet.new "12"] : List Alphabet).length →
        cover.getD i ' ' ∈
          (([Alphabet.new "AB", Alphabet.new "12"] : List Alphabet).getD i ⟨[]⟩).get) ∧
      final.Perm cover ∧
      produce_password ([Alphabet.new "AB", Alphabet.new "12"] : List Alphabet).length
          [Alphabet.new "AB", Alphabet.new "12"] (constRng 1) =
        (.ok (String.mk final),
         ⟨(constRng 1).stream, (constRng 1).pos +
           ([Alphabet.new "AB", Alphabet.new "12"] : List Alphabet).length +
           (([Alphabet.new "AB", Alphabet.new "12"] : List Alphabet).length - 1)⟩)) :=
  ⟨by decide, by decide,
   boundary_case [Alphabet.new "AB", Alphabet.new "12"] (constRng 1)
     (by decide) (by decide)⟩

/-- C6 (Precondition enforcement): `generate` fails with the empty-set
error when no alphabets are supplied, fails with the insufficient-length
error when alphabets are supplied but `length < alphabets.count()`, and
raises neither of these two errors otherwise. -/
theorem precondition_enforcement (length : Nat) (alphabets : List Alphabet)
    (g : Rng) :
    (alphabets = [] →
      produce_password length alphabets g = (.error .emptyAlphabetSet, g)) ∧
    (alphabets ≠ [] → length < alphabets.length →
      produce_password length alphabets g = (.error .lengthTooShort, g)) ∧
    (alphabets ≠ [] → alphabets.length ≤ length →
      ∀ r g', produce_password length alphabets g = (r, g') →
        r ≠ .error .lengthTooShort ∧ r ≠ .error .emptyAlphabetSet) := by
  refine ⟨?_, ?_, ?_⟩
  · rintro rfl
    simp [produce_password]
  · intro hne hlt
    rw [produce_password, if_pos hlt]
  · intro hne hle r g' hrun
    have hc1 : ¬ length < alphabets.length := by omega
    have hc2 : ¬ alphabets.length < 1 := by
      have := List.length_pos.mpr hne
      omega
    by_cases hall : ∀ abc ∈ alphabets, 0 < abc.len
    · obtain ⟨cover, final, hcov, hclen, hcmem, hfill, hshuf, hperm, hok⟩ :=
        produce_password_characterization length alphabets g ⟨hne, hall, hle⟩
      rw [hok] at hrun
      simp only [Prod.mk.injEq] at hrun
      obtain ⟨h1, h2⟩ := hrun
      subst h1
      exact ⟨by simp, by simp⟩
    · push_neg at hall
      obtain ⟨abc, hm, h0⟩ := hall
      have h00 : abc.len = 0 := by omega
      obtain ⟨gc, hgc⟩ := coverage_fails_of_empty_mem alphabets g ⟨abc, hm, h00⟩
      rw [produce_password, if_neg hc1, if_neg hc2] at hrun
      rw [hgc] at hrun
      simp only [Prod.mk.injEq] at hrun
      obtain ⟨h1, h2⟩ := hrun
      subst h1
      exact ⟨by simp, by simp⟩

/-- C6 witness: the two failing instances from the spec's test list. -/
theorem precondition_enforcement_witness :
    produce_password 5 [] (constRng 0) = (.error .emptyAlphabetSet, constRng 0) ∧
    produce_password 0 [Alphabet.new "abc"] (constRng 0) =
      (.error .lengthTooShort, constRng 0) ∧
    ((produce_password 2 [Alphabet.new "AB"] (constRng 0)).1 ≠
        .error .lengthTooShort ∧
     (produce_password 2 [Alphabet.new "AB"] (constRng 0)).1 ≠
        .error .emptyAlphabetSet) :=
  ⟨(precondition_enforcement 5 [] (constRng 0)).1 rfl,
   (precondition_enforcement 0 [Alphabet.new "abc"] (constRng 0)).2.1
     (by decide) (by decide),
   (precondition_enforcement 2 [Alphabet.new "AB"] (constRng 0)).2.2
     (by decide) (by decide)
     (produce_password 2 [Alphabet.new "AB"] (constRng 0)).1
     (produce_password 2 [Alphabet.new "AB"] (constRng 0)).2 rfl⟩

/-- C7 counterexample: with one non-empty alphabet followed by an empty
one, the call fails only inside the coverage loop, after one random draw
has already been consumed — the failure is the empty-range sampling panic,
not an explicit precondition error raised at the start, and a random draw
does occur on this failing path. -/
theorem failfast_counterexample :
    (produce_password 2 [Alphabet.new "AB", Alphabet.new ""] (constRng 0)).1 =
      .error .emptyRange ∧
    (produce_password 2 [Alphabet.new "AB", Alphabet.new ""] (constRng 0)).2.pos = 1 ∧
    (constRng 0).pos = 0 := by
  refine ⟨rfl, rfl, rfl⟩

/-- C7 amended: the two explicit precondition checks (empty alphabet set,
insufficient length) are performed at the start of `generate` and report
their error before any randomness is consumed (the random state is returned
unchanged); but an individual empty alphabet is not checked up front — it
causes an empty-range sampling failure during the coverage phase, possibly
after random draws for earlier alphabets have been consumed. -/
theorem failfast_amended (length : Nat) (alphabets : List Alphabet) (g : Rng) :
    ((alphabets = [] ∨ length < alphabets.length) →
      ∃ e, produce_password length alphabets g = (.error e, g)) ∧
    (alphabets ≠ [] → alphabets.length ≤ length →
      (∃ abc ∈ alphabets, abc.len = 0) →
      ∃ g', produce_password length alphabets g = (.error .emptyRange, g')) := by
  constructor
  · intro hf
    by_cases hlt : length < alphabets.length
    · exact ⟨.lengthTooShort, by rw [produce_password, if_pos hlt]⟩
    · rcases hf with rfl | h
      · exact ⟨.emptyAlphabetSet, by simp [produce_password]⟩
      · exact absurd h hlt
  · intro hne hle hempty
    have hc1 : ¬ length < alphabets.length := by omega
    have hc2 : ¬ alphabets.length < 1 := by
      have := List.length_pos.mpr hne
      omega
    obtain ⟨gc, hgc⟩ := coverage_fails_of_empty_mem alphabets g hempty
    refine ⟨gc, ?_⟩
    rw [produce_password, if_neg hc1, if_neg hc2, hgc]

/-- C7 amended witness: a failing explicit check leaves the random state
untouched; an empty second alphabet fails with the sampling panic. -/
theorem failfast_amended_witness :
    (∃ e, produce_password 1 [Alphabet.new "AB", Alphabet.new "C"] (constRng 0) =
      (.error e, constRng 0)) ∧
    (∃ g', produce_password 2 [Alphabet.new "A", Alphabet.new ""] (constRng 0) =
      (.error .emptyRange, g')) :=
  ⟨(failfast_amended 1 [Alphabet.new "AB", Alphabet.new "C"] (constRng 0)).1
     (Or.inr (by decide)),
   (failfast_amended 2 [Alphabet.new "A", Alphabet.new ""] (constRng 0)).2
     (by decide) (by decide) (by decide)⟩

/-- C8 (symbol_at contract): `symbol_at(index)` returns the stored symbol
at the zero-based position when `index < size()` and fails out-of-bounds
when `index >= size()`; the spec's concrete examples hold; and within
`generate`, under the validity precondition, every run succeeds, so the
out-of-bounds branch is unreachable. -/
theorem symbol_at_contract :
    ((Alphabet.new "ABCD").len = 4 ∧
     (Alphabet.new "ABCD").nth 0 = some 'A' ∧
     (Alphabet.new "ABCD").nth 3 = some 'D' ∧
     (Alphabet.new "ABCD").nth 4 = none) ∧
    (∀ (a : Alphabet) (n : Nat) (hn : n < a.len),
      a.nth n = some (a.symbols.getD n ' ')) ∧
    (∀ (a : Alphabet) (n : Nat), a.len ≤ n → a.nth n = none) ∧
    (∀ (length : Nat) (alphabets : List Alphabet) (g : Rng),
      ValidInput length alphabets →
      ∃ s g', produce_password length alphabets g = (.ok s, g')) := by
  refine ⟨by decide, ?_, ?_, ?_⟩
  · intro a n hn
    rw [Alphabet.nth, List.getElem?_eq_getElem hn,
      List.getD_eq_getElem a.symbols ' ' hn]
  · intro a n hn
    rw [Alphabet.nth, List.getElem?_eq_none hn]
  · intro length alphabets g h
    obtain ⟨cover, final, hcov, hclen, hcmem, hfill, hshuf, hperm, hrun⟩ :=
      produce_password_characterization length alphabets g h
    exact ⟨String.mk final, _, hrun⟩

/-- C8 witness: the accessor contract and in-`generate` unreachability at
concrete inputs. -/
theorem symbol_at_contract_witness :
    (Alphabet.new "XY").nth 1 = some ((Alphabet.new "XY").symbols.getD 1 ' ') ∧
    (Alphabet.new "XY").nth 2 = none ∧
    (∃ s g', produce_password 2 [Alphabet.new "XY"] (constRng 3) = (.ok s, g')) :=
  ⟨symbol_at_contract.2.1 (Alphabet.new "XY") 1 (by decide),
   symbol_at_contract.2.2.1 (Alphabet.new "XY") 2 (by decide),
   symbol_at_contract.2.2.2 2 [Alphabet.new "XY"] (constRng 3)
     ⟨by decide, by decide, by decide⟩⟩

/-- C9 (Duplicate-implementation equivalence): on every valid input and
the same stream of uniform random draws, the object-oriented wrapper
`PasswordFactory::new(length, alphabets).produce()` returns exactly what
the free function `produce_password(length, alphabets)` returns, leaving
the random state in the same position. -/
theorem duplicate_implementation_equiv (length : Nat)
    (alphabets : List Alphabet) (g : Rng) (h : ValidInput length alphabets) :
    (PasswordFactory.new length alphabets).produce g =
      produce_password length alphabets g := by
  obtain ⟨cover, final, hcov, hclen, hcmem, hfill, hshuf, hperm, hrun⟩ :=
    produce_password_characterization length alphabets g h
  obtain ⟨hne, hpos, hle⟩ := h
  set extra := (List.range (length - alphabets.length)).map
    (fun t => (collect_all_symbols alphabets).getD
      (g.stream (g.pos + alphabets.length + t) %
        (collect_all_symbols alphabets).length) ' ') with hextra
  have hsub : usizeSub length cover.length = .ok (length - cover.length) := by
    rw [usizeSub, if_pos (by omega)]
  have hany : PasswordFactory.anyLoop (collect_all_symbols alphabets)
      (length - cover.length) [] ⟨g.stream, g.pos + alphabets.length⟩ =
      (.ok extra, ⟨g.stream, g.pos + length⟩) := by
    have h1 : fillLoop length (collect_all_symbols alphabets) cover
        ⟨g.stream, g.pos + alphabets.length⟩ =
        PasswordFactory.anyLoop (collect_all_symbols alphabets)
          (length - cover.length) cover ⟨g.stream, g.pos + alphabets.length⟩ :=
      fillLoop_eq_anyLoop (length - cover.length) length
        (collect_all_symbols alphabets) cover
        ⟨g.stream, g.pos + alphabets.length⟩ rfl
    have h2 := h1 ▸ hfill
    have h3 := anyLoop_append (collect_all_symbols alphabets)
      (length - cover.length) cover [] ⟨g.stream, g.pos + alphabets.length⟩
    rw [List.append_nil] at h3
    rw [h3] at h2
    rcases ha : PasswordFactory.anyLoop (collect_all_symbols alphabets)
        (length - cover.length) [] ⟨g.stream, g.pos + alphabets.length⟩
      with ⟨r, g'⟩
    rw [ha] at h2
    cases r with
    | error e => simp at h2
    | ok l =>
      simp only [Prod.mk.injEq, Except.ok.injEq] at h2
      obtain ⟨hl, hg⟩ := h2
      have : l = extra := List.append_cancel_left hl
      rw [this, hg]
  rw [hrun]
  simp only [PasswordFactory.produce, PasswordFactory.random_from_each_alphabet,
    PasswordFactory.new]
  rw [eachLoop_eq alphabets [] g, hcov]
  simp only [List.nil_append, hsub]
  simp only [PasswordFactory.random_from_any_alphabet,
    PasswordFactory.collect_all_symbols]
  have hcolleq : (PasswordFactory.mk length alphabets).alphabets.foldl
      (fun acc abc => acc ++ abc.get) [] = collect_all_symbols alphabets := rfl
  rw [hcolleq, hany]
  simp only [hshuf]

/-- C9 witness: a concrete valid input on which both implementations agree. -/
theorem duplicate_implementation_equiv_witness :
    ValidInput 3 [Alphabet.new "AB", Alphabet.new "12"] ∧
    (PasswordFactory.new 3 [Alphabet.new "AB", Alphabet.new "12"]).produce
        (constRng 1) =
      produce_password 3 [Alphabet.new "AB", Alphabet.new "12"] (constRng 1) :=
  ⟨⟨by decide, by decide, by decide⟩,
   duplicate_implementation_equiv 3 [Alphabet.new "AB", Alphabet.new "12"]
     (constRng 1) ⟨by decide, by decide, by decide⟩⟩

/-- C10 (Wrapper performs no precondition checks):
`PasswordFactory::new(0, []).produce()` returns the empty string
successfully instead of failing with the empty-alphabet-set error, and for
`length < alphabets.count()` (alphabets themselves non-empty) it fails
via the unsigned-integer underflow of `self.length - symbols.len()` — after
the per-alphabet draws have consumed randomness — rather than with the
insufficient-length error. -/
theorem factory_no_checks :
    (∀ g : Rng, (PasswordFactory.new 0 []).produce g = (.ok "", g)) ∧
    (∀ (length : Nat) (alphabets : List Alphabet) (g : Rng),
      length < alphabets.length → (∀ abc ∈ alphabets, 0 < abc.len) →
      (PasswordFactory.new length alphabets).produce g =
        (.error .subOverflow, ⟨g.stream, g.pos + alphabets.length⟩)) := by
  constructor
  · intro g
    rfl
  · intro length alphabets g hlt hall
    obtain ⟨cover, hcov, hclen, hcmem⟩ := coverage_ok alphabets g hall
    have hsub : usizeSub length cover.length = .error .subOverflow := by
      rw [usizeSub, if_neg (by omega)]
    simp only [PasswordFactory.produce, PasswordFactory.random_from_each_alphabet,
      PasswordFactory.new]
    rw [eachLoop_eq alphabets [] g, hcov]
    simp only [List.nil_append, hsub]

/-- C10 witness: both failure modes at concrete inputs. -/
theorem factory_no_checks_witness :
    (PasswordFactory.new 0 []).produce (constRng 0) = (.ok "", constRng 0) ∧
    ((1 : Nat) < ([Alphabet.new "AB", Alphabet.new "CD"] : List Alphabet).length ∧
     (PasswordFactory.new 1 [Alphabet.new "AB", Alphabet.new "CD"]).produce
         (constRng 0) =
       (.error .subOverflow, ⟨(constRng 0).stream,
         (constRng 0).pos +
           ([Alphabet.new "AB", Alphabet.new "CD"] : List Alphabet).length⟩)) :=
  ⟨factory_no_checks.1 (constRng 0),
   by decide,
   factory_no_checks.2 1 [Alphabet.new "AB", Alphabet.new "CD"] (constRng 0)
     (by decide) (by decide)⟩
